import Mathlib

/-
Shallow embedding of `src/fountain_eval/fountain_eval.py`.

Lines of the input file are modelled as `List Char` (one entry per raw
line, as produced by the reference implementation reading the file with
`readlines()`, so a line normally carries its trailing newline).
Python floats are modelled as rationals `ℚ`; the arithmetic performed by
the program (`word_count / WORDS_PER_MINUTE * 60` and additions) is exact
on the values of interest, so the rational model is faithful to the
ordering and equality facts stated below.  Python exceptions are modelled
with `Except PyError`.
-/

namespace FountainEval

/-- Python `str.strip()` whitespace (the ASCII whitespace characters). -/
def isSpaceChar (c : Char) : Bool :=
  c = ' ' || c = '\t' || c = '\n' || c = '\r' || c = '\x0b' || c = '\x0c'

/-- Python `s.strip()`: drop leading and trailing whitespace. -/
def stripChars (s : List Char) : List Char :=
  ((s.dropWhile isSpaceChar).reverse.dropWhile isSpaceChar).reverse

/-- The apostrophe character, written by code point to keep the file plain. -/
def quoteChar : Char := Char.ofNat 39

/-- Helper for the regex-sub in `clean_line`: given the characters after a
literal opening parenthesis, the pattern of `re.sub` matches exactly when
a closing parenthesis occurs before any newline (the dot of the pattern
does not cross newlines); the lazy quantifier stops at the first such
closing parenthesis.  Returns the remainder after it. -/
def findCloseParen : List Char → Option (List Char)
  | [] => none
  | c :: rest =>
    if c = ')' then some rest
    else if c = '\n' then none
    else findCloseParen rest

/-- The parenthetical-removing `re.sub` of `clean_line`, written with
explicit fuel so that the definition is structurally recursive (the fuel
is always sufficient: each step consumes at least one character). -/
def removeParensFuel : Nat → List Char → List Char
  | 0, s => s
  | _ + 1, [] => []
  | fuel + 1, c :: rest =>
    if c = '(' then
      match findCloseParen rest with
      | some rest2 => removeParensFuel fuel rest2
      | none => c :: removeParensFuel fuel rest
    else c :: removeParensFuel fuel rest

def removeParens (s : List Char) : List Char :=
  removeParensFuel s.length s

/-- The literal nine-character pattern removed by the `.replace` call of
`clean_line` (space, open paren, C, O, N, T, apostrophe, D, close paren). -/
def contdPattern : List Char :=
  [' ', '(', 'C', 'O', 'N', 'T', quoteChar, 'D', ')']

/-- The same pattern without its leading space (used by the character-cue
regex analysis). -/
def contdTail : List Char :=
  ['(', 'C', 'O', 'N', 'T', quoteChar, 'D', ')']

/-- Boolean list-prefix test. -/
def startsWith : List Char → List Char → Bool
  | [], _ => true
  | _ :: _, [] => false
  | p :: ps, c :: cs => p = c && startsWith ps cs

/-- The `.replace` call of `clean_line`: remove every occurrence of the
nine-character continued-dialogue pattern, scanning left to right
(fuelled to stay structurally recursive). -/
def removeContDFuel : Nat → List Char → List Char
  | 0, s => s
  | _ + 1, [] => []
  | fuel + 1, c :: rest =>
    if startsWith contdPattern (c :: rest) then removeContDFuel fuel (rest.drop 8)
    else c :: removeContDFuel fuel rest

def removeContD (s : List Char) : List Char :=
  removeContDFuel s.length s

/-- `clean_line` from the source: remove parenthetical substrings, remove
the continued-dialogue marker, then strip surrounding whitespace. -/
def clean_line (line : List Char) : List Char :=
  stripChars (removeContD (removeParens line))

/-- `count_words` from the source (`len(text.split())`): the number of
maximal nonempty runs of non-whitespace characters. -/
def countWordsAux : List Char → Bool → Nat
  | [], _ => 0
  | c :: rest, inWord =>
    if isSpaceChar c then countWordsAux rest false
    else (if inWord then 0 else 1) + countWordsAux rest true

def count_words (s : List Char) : Nat :=
  countWordsAux s false

/-- The character class (uppercase letters, digits, hash, space) of
`character_re`. -/
def isCueChar (c : Char) : Bool :=
  ('A' ≤ c && c ≤ 'Z') || ('0' ≤ c && c ≤ '9') || c = '#' || c = ' '

/-- `character_re.match(s)`: one or more cue-class characters, an optional
continued-dialogue marker, then optional whitespace up to the end of the
string (anchored at the start, as `re.match` is).  The string matches
exactly when it splits as `a ++ b ++ c` with `a` a nonempty run of
cue-class characters, `b` either empty or the literal marker, and `c`
whitespace; because the cue class contains the space character and the
marker starts with one, the split is decided from the maximal cue-class
prefix, giving this executable form (the two disjuncts are the `b` empty
and `b` marker cases). -/
def character_re_match (s : List Char) : Bool :=
  (!(s.takeWhile isCueChar).isEmpty && (s.dropWhile isCueChar).all isSpaceChar)
  ||
  (2 ≤ (s.takeWhile isCueChar).length &&
    (s.takeWhile isCueChar).getLast? = some ' ' &&
    startsWith contdTail (s.dropWhile isCueChar) &&
    ((s.dropWhile isCueChar).drop 8).all isSpaceChar)

/-- `parenthetical_re.match(s)`: an opening parenthesis, one or more
characters other than a closing parenthesis (the greedy class stops at
the first closing parenthesis), a closing parenthesis, a newline, and the
end anchor (end of string, or just before one final newline). -/
def parenthetical_re_match (s : List Char) : Bool :=
  match s with
  | [] => false
  | c :: rest =>
    c = '(' &&
      !(rest.takeWhile (fun x => !(x = ')'))).isEmpty &&
      (rest.dropWhile (fun x => !(x = ')')) = [')', '\n'] ||
       rest.dropWhile (fun x => !(x = ')')) = [')', '\n', '\n'])

/-- `stage_direction_re.match(s)`: a literal dot, one or more non-newline
characters, a newline, and the end anchor. -/
def stage_direction_re_match (s : List Char) : Bool :=
  match s with
  | [] => false
  | c :: rest =>
    c = '.' &&
      !(rest.takeWhile (fun x => !(x = '\n'))).isEmpty &&
      (rest.dropWhile (fun x => !(x = '\n')) = ['\n'] ||
       rest.dropWhile (fun x => !(x = '\n')) = ['\n', '\n'])

/-- `WORDS_PER_MINUTE = 150` from the source. -/
def WORDS_PER_MINUTE : ℚ := 150

/-- One entry of the `character_data` dictionary. -/
structure CharRecord where
  positions : List (ℚ × ℚ)
  word_count : Nat
  line_count : Nat
deriving DecidableEq, Repr

/-- The mutable state of the loop in `extract_character_data`.  The
dictionary is modelled as an insertion-ordered association list, as Python
dictionaries are. -/
structure ParseState where
  character_data : List (List Char × CharRecord)
  current_time : ℚ
  current_character : Option (List Char)
  capturing_dialogue : Bool
deriving DecidableEq, Repr

/-- Python exceptions the reference implementation can raise, plus the
configuration error the specification mandates (never produced by the
code; present so that its absence can be stated). -/
inductive PyError where
  | valueError
  | zeroDivisionError
  | keyError
  | configurationError
deriving DecidableEq, Repr

instance instDecEqExcept {ε α : Type} [DecidableEq ε] [DecidableEq α] :
    DecidableEq (Except ε α) := fun x y =>
  match x, y with
  | Except.ok a, Except.ok b =>
    if h : a = b then isTrue (by rw [h]) else isFalse (by simp [h])
  | Except.error a, Except.error b =>
    if h : a = b then isTrue (by rw [h]) else isFalse (by simp [h])
  | Except.ok _, Except.error _ => isFalse (by simp)
  | Except.error _, Except.ok _ => isFalse (by simp)

def initState : ParseState :=
  { character_data := [], current_time := 0,
    current_character := none, capturing_dialogue := false }

/-- Dictionary lookup, first matching key. -/
def lookupChar (d : List (List Char × CharRecord)) (k : List Char) :
    Option CharRecord :=
  match d with
  | [] => none
  | (k2, r) :: rest => if k2 = k then some r else lookupChar rest k

/-- Dictionary update of the entry at a key, first matching key. -/
def updateChar (d : List (List Char × CharRecord)) (k : List Char)
    (f : CharRecord → CharRecord) : List (List Char × CharRecord) :=
  match d with
  | [] => []
  | (k2, r) :: rest =>
    if k2 = k then (k2, f r) :: rest else (k2, r) :: updateChar rest k f

/-- The character-cue branch of the loop (source lines 48 to 57): set
`current_character` to the stripped cleaned line, create its record when
absent, and set `capturing_dialogue`. -/
def cueStep (st : ParseState) (cleaned : List Char) : ParseState :=
  { st with
    character_data :=
      if lookupChar st.character_data (stripChars cleaned) = none then
        st.character_data ++
          [(stripChars cleaned,
            { positions := [], word_count := 0, line_count := 0 })]
      else st.character_data,
    current_character := some (stripChars cleaned),
    capturing_dialogue := true }

/-- The dialogue branch of the loop (source lines 64 to 79), generalized
over the words-per-minute rate: dividing by a zero rate raises
`ZeroDivisionError` (as Python division does), indexing a missing key
raises `KeyError`, otherwise one speaking interval is appended and the
time cursor advances. -/
def dialogueStep (wpm : ℚ) (st : ParseState) (ch cleaned : List Char) :
    Except PyError ParseState :=
  if wpm = 0 then Except.error PyError.zeroDivisionError
  else
    match lookupChar st.character_data ch with
    | none => Except.error PyError.keyError
    | some _ =>
      Except.ok
        { st with
          character_data :=
            updateChar st.character_data ch (fun r =>
              { positions :=
                  r.positions ++
                    [(st.current_time,
                      st.current_time +
                        (count_words (stripChars cleaned) : ℚ) / wpm * 60)],
                word_count := r.word_count + count_words (stripChars cleaned),
                line_count := r.line_count + 1 }),
          current_time :=
            st.current_time +
              (count_words (stripChars cleaned) : ℚ) / wpm * 60 }

/-- The blank-line check at the end of each loop iteration (source lines
82 to 83). -/
def blankCheck (cleaned : List Char) (st : ParseState) : ParseState :=
  if cleaned = [] then { st with capturing_dialogue := false } else st

/-- One iteration of the loop of `extract_character_data` (source lines 44
to 83).  The parenthetical / stage-direction branch ends with `continue`,
so it alone skips the blank-line check. -/
def processLine (wpm : ℚ) (st : ParseState) (line : List Char) :
    Except PyError ParseState :=
  if character_re_match (clean_line line) then
    Except.ok (blankCheck (clean_line line) (cueStep st (clean_line line)))
  else if parenthetical_re_match (clean_line line) ||
      stage_direction_re_match (clean_line line) then
    Except.ok st
  else if st.capturing_dialogue && !(clean_line line).isEmpty then
    match st.current_character with
    | some ch =>
      if ch.isEmpty then Except.ok (blankCheck (clean_line line) st)
      else (dialogueStep wpm st ch (clean_line line)).map
        (blankCheck (clean_line line))
    | none => Except.ok (blankCheck (clean_line line) st)
  else Except.ok (blankCheck (clean_line line) st)

/-- The whole loop. -/
def processLines (wpm : ℚ) :
    ParseState → List (List Char) → Except PyError ParseState
  | st, [] => Except.ok st
  | st, l :: ls =>
    match processLine wpm st l with
    | Except.ok st2 => processLines wpm st2 ls
    | Except.error e => Except.error e

/-- All speaking intervals of the dictionary, characters in dictionary
order and intervals in list order. -/
def flattenPositions (d : List (List Char × CharRecord)) : List (ℚ × ℚ) :=
  (d.map fun p => p.2.positions).flatten

/-- The interval end times in the order the generator expression on source
line 86 visits them. -/
def allEnds (d : List (List Char × CharRecord)) : List ℚ :=
  (flattenPositions d).map fun iv => iv.2

/-- Python `max` over a sequence: raises `ValueError` when the sequence is
empty, otherwise folds `max` from the first element. -/
def pyMax : List ℚ → Except PyError ℚ
  | [] => Except.error PyError.valueError
  | x :: xs => Except.ok (xs.foldl max x)

/-- `extract_character_data` from the source, generalized over the
words-per-minute rate (the source fixes the rate at the module constant
`WORDS_PER_MINUTE`; the generalized form keeps every other step identical
and is used to examine the specification requirement about non-positive
rates). -/
def extract_character_data_rate (wpm : ℚ) (lines : List (List Char)) :
    Except PyError (List (List Char × CharRecord) × ℚ) :=
  match processLines wpm initState lines with
  | Except.error e => Except.error e
  | Except.ok st =>
    match pyMax (allEnds st.character_data) with
    | Except.error e => Except.error e
    | Except.ok total => Except.ok (st.character_data, total)

/-- `extract_character_data` exactly as in the source: the rate is the
module constant. -/
def extract_character_data (lines : List (List Char)) :
    Except PyError (List (List Char × CharRecord) × ℚ) :=
  extract_character_data_rate WORDS_PER_MINUTE lines

/-- A list of intervals is a gap-free chain from a start instant: each
interval starts where the previous one ended (the first at the given
instant) and ends no earlier than it starts. -/
def chainFrom : ℚ → List (ℚ × ℚ) → Prop
  | _, [] => True
  | t, iv :: rest => iv.1 = t ∧ t ≤ iv.2 ∧ chainFrom iv.2 rest

/-- The final instant of a chain of intervals started at a given instant. -/
def lastEnd (t : ℚ) : List (ℚ × ℚ) → ℚ
  | [] => t
  | iv :: rest => lastEnd iv.2 rest

/-- Every interval of the record lies within `[0, t]`, with its end no
earlier than its start, and interval starts are in non-decreasing order. -/
def RecordWithin (t : ℚ) (r : CharRecord) : Prop :=
  (∀ iv ∈ r.positions, 0 ≤ iv.1 ∧ iv.1 ≤ iv.2 ∧ iv.2 ≤ t) ∧
  List.Pairwise (fun a b : ℚ × ℚ => a.1 ≤ b.1) r.positions

/-- The loop invariant for the interval-ordering claims: a non-negative
cursor bounding every recorded interval. -/
def StateWithin (st : ParseState) : Prop :=
  0 ≤ st.current_time ∧
  ∀ p ∈ st.character_data, RecordWithin st.current_time p.2

/- Concrete example lines and expected values used by the theorems. -/

def joeLine : List Char := ['J', 'O', 'E', '\n']

def helloLine : List Char :=
  ['H', 'e', 'l', 'l', 'o', ' ', 't', 'h', 'e', 'r', 'e', ' ',
   'f', 'r', 'i', 'e', 'n', 'd', '\n']

def blankLine : List Char := ['\n']

def joeName : List Char := ['J', 'O', 'E']

def hiLine : List Char := ['h', 'i', '\n']

def parenLine : List Char := ['(', 'b', 'e', 'a', 't', ')', '\n']

def hiThereLine : List Char := ['H', 'i', ' ', 't', 'h', 'e', 'r', 'e', '\n']

def cutToLine : List Char := ['.', 'C', 'U', 'T', ' ', 'T', 'O', ':', '\n']

def byeByeLine : List Char := ['B', 'y', 'e', ' ', 'b', 'y', 'e', '\n']

def bobName : List Char := ['B', 'O', 'B']

/-- A tiny successful parse used to instantiate hypotheses of the general
theorems: a cue line for the character `A` and a one-word dialogue line. -/
def tinyLines : List (List Char) := [['A', '\n'], ['H', 'i', '\n']]

def tinyData : List (List Char × CharRecord) :=
  [(['A'], { positions := [(0, 2/5)], word_count := 1, line_count := 1 })]

/-- The state reached by `processLine` in the witness of the cue-switch
theorem: the parser was capturing for `BOB` while `JOE` already had a
record. -/
def switchStateBefore : ParseState :=
  { character_data :=
      [(joeName, { positions := [], word_count := 0, line_count := 0 })],
    current_time := 0, current_character := some bobName,
    capturing_dialogue := true }

def switchStateAfter : ParseState :=
  { character_data :=
      [(joeName, { positions := [], word_count := 0, line_count := 0 })],
    current_time := 0, current_character := some joeName,
    capturing_dialogue := true }

/- Branch-equation lemmas for `processLine`: one per control path of the
loop body, so that both the concrete traces and the inductive invariants
below can proceed by case analysis on the line classification. -/

theorem character_re_match_ne_nil {s : List Char}
    (h : character_re_match s = true) : s ≠ [] := by
  intro hs
  subst hs
  simp [character_re_match, List.takeWhile, List.dropWhile] at h

theorem blankCheck_character_data (c : List Char) (st : ParseState) :
    (blankCheck c st).character_data = st.character_data := by
  unfold blankCheck
  split <;> rfl

theorem blankCheck_current_time (c : List Char) (st : ParseState) :
    (blankCheck c st).current_time = st.current_time := by
  unfold blankCheck
  split <;> rfl

theorem blankCheck_current_character (c : List Char) (st : ParseState) :
    (blankCheck c st).current_character = st.current_character := by
  unfold blankCheck
  split <;> rfl

theorem blankCheck_of_ne_nil {c : List Char} (st : ParseState)
    (h : c ≠ []) : blankCheck c st = st := by
  unfold blankCheck
  simp [h]

theorem processLine_cue (wpm : ℚ) (st : ParseState) (l : List Char)
    (h : character_re_match (clean_line l) = true) :
    processLine wpm st l = Except.ok (cueStep st (clean_line l)) := by
  unfold processLine
  rw [if_pos h, blankCheck_of_ne_nil _ (character_re_match_ne_nil h)]

theorem processLine_blank (wpm : ℚ) (st : ParseState) (l : List Char)
    (h : clean_line l = []) :
    processLine wpm st l =
      Except.ok { st with capturing_dialogue := false } := by
  unfold processLine
  rw [h]
  simp [character_re_match, parenthetical_re_match, stage_direction_re_match,
    List.takeWhile, blankCheck]

theorem processLine_not_capturing (wpm : ℚ) (st : ParseState) (l : List Char)
    (hm : character_re_match (clean_line l) = false)
    (hp : parenthetical_re_match (clean_line l) = false)
    (hs : stage_direction_re_match (clean_line l) = false)
    (hc : st.capturing_dialogue = false)
    (hne : clean_line l ≠ []) :
    processLine wpm st l = Except.ok st := by
  unfold processLine
  rw [hm, hp, hs, hc]
  simp [blankCheck_of_ne_nil _ hne]

theorem processLine_dialogue (wpm : ℚ) (st : ParseState) (l ch : List Char)
    (r : CharRecord)
    (hm : character_re_match (clean_line l) = false)
    (hp : parenthetical_re_match (clean_line l) = false)
    (hs : stage_direction_re_match (clean_line l) = false)
    (hc : st.capturing_dialogue = true)
    (hch : st.current_character = some ch)
    (hch2 : ch ≠ [])
    (hw : wpm ≠ 0)
    (hlk : lookupChar st.character_data ch = some r)
    (hne : clean_line l ≠ []) :
    processLine wpm st l =
      Except.ok
        { st with
          character_data :=
            updateChar st.character_data ch (fun r =>
              { positions :=
                  r.positions ++
                    [(st.current_time,
                      st.current_time +
                        (count_words (stripChars (clean_line l)) : ℚ) /
                          wpm * 60)],
                word_count :=
                  r.word_count + count_words (stripChars (clean_line l)),
                line_count := r.line_count + 1 }),
          current_time :=
            st.current_time +
              (count_words (stripChars (clean_line l)) : ℚ) / wpm * 60 } := by
  unfold processLine
  rw [hm, hp, hs, hc, hch]
  simp only [List.isEmpty_iff, hne, hch2, ite_false, if_false,
    Bool.true_and, Bool.not_eq_true]
  unfold dialogueStep
  rw [if_neg hw, hlk]
  simp [Except.map, blankCheck_of_ne_nil _ hne, hne, hch, hc,
    List.isEmpty_iff]

theorem processLine_dialogue_zero_rate (st : ParseState) (l ch : List Char)
    (hm : character_re_match (clean_line l) = false)
    (hp : parenthetical_re_match (clean_line l) = false)
    (hs : stage_direction_re_match (clean_line l) = false)
    (hc : st.capturing_dialogue = true)
    (hch : st.current_character = some ch)
    (hch2 : ch ≠ [])
    (hne : clean_line l ≠ []) :
    processLine 0 st l = Except.error PyError.zeroDivisionError := by
  unfold processLine
  rw [hm, hp, hs, hc, hch]
  simp only [List.isEmpty_iff, hne, hch2, ite_false, if_false,
    Bool.true_and, Bool.not_eq_true]
  unfold dialogueStep
  simp [Except.map, hne, List.isEmpty_iff, hch2]

/- Properties of `stripChars`: its result never starts or ends with a
whitespace character.  The two pattern matchers for parentheticals and
stage directions demand a trailing newline, so they can never accept a
stripped string. -/

theorem dropWhile_head_eq_false {p : Char → Bool} :
    ∀ {l : List Char} {x : Char} {xs : List Char},
      l.dropWhile p = x :: xs → p x = false := by
  intro l
  induction l with
  | nil => intro x xs h; simp at h
  | cons c t ih =>
    intro x xs h
    rw [List.dropWhile_cons] at h
    by_cases hc : p c = true
    · rw [if_pos hc] at h
      exact ih h
    · rw [if_neg hc] at h
      injection h with h1 h2
      subst h1
      simp only [Bool.not_eq_true] at hc
      exact hc

theorem stripChars_getLast?_not_space {s : List Char} {x : Char}
    (h : (stripChars s).getLast? = some x) : isSpaceChar x = false := by
  unfold stripChars at h
  rw [List.getLast?_reverse] at h
  cases hL : (s.dropWhile isSpaceChar).reverse.dropWhile isSpaceChar with
  | nil => rw [hL] at h; simp at h
  | cons y ys =>
    rw [hL] at h
    simp only [List.head?_cons, Option.some.injEq] at h
    subst h
    exact dropWhile_head_eq_false hL

theorem stripChars_head?_not_space {s : List Char} {x : Char}
    (h : (stripChars s).head? = some x) : isSpaceChar x = false := by
  unfold stripChars at h
  rw [List.head?_reverse] at h
  cases hL : (s.dropWhile isSpaceChar).reverse.dropWhile isSpaceChar with
  | nil => rw [hL] at h; simp at h
  | cons y ys =>
    have hX : (s.dropWhile isSpaceChar).reverse.dropWhile isSpaceChar ≠ [] := by
      rw [hL]; simp
    obtain ⟨t, ht⟩ := List.dropWhile_suffix (l := (s.dropWhile isSpaceChar).reverse)
      isSpaceChar
    have h2 : ((s.dropWhile isSpaceChar).reverse).getLast? = some x := by
      rw [← ht, List.getLast?_append_of_ne_nil _ hX]
      exact h
    rw [List.getLast?_reverse] at h2
    cases hD : s.dropWhile isSpaceChar with
    | nil => rw [hD] at h2; simp at h2
    | cons z zs =>
      rw [hD] at h2
      simp only [List.head?_cons, Option.some.injEq] at h2
      subst h2
      exact dropWhile_head_eq_false hD

theorem getLast?_cons_append_right {c : Char} {a b : List Char}
    (hb : b ≠ []) : (c :: (a ++ b)).getLast? = b.getLast? := by
  rw [← List.cons_append, List.getLast?_append_of_ne_nil _ hb]

theorem parenthetical_re_match_getLast {s : List Char}
    (h : parenthetical_re_match s = true) : s.getLast? = some '\n' := by
  cases s with
  | nil => simp [parenthetical_re_match] at h
  | cons c rest =>
    simp only [parenthetical_re_match, Bool.and_eq_true, Bool.or_eq_true,
      decide_eq_true_eq] at h
    obtain ⟨⟨hc, -⟩, hr⟩ := h
    subst hc
    have hsplit : rest.takeWhile (fun x => !(x = ')')) ++
        rest.dropWhile (fun x => !(x = ')')) = rest :=
      List.takeWhile_append_dropWhile _ _
    rw [← hsplit]
    cases hr with
    | inl h1 =>
      rw [getLast?_cons_append_right (by rw [h1]; simp), h1]
      rfl
    | inr h1 =>
      rw [getLast?_cons_append_right (by rw [h1]; simp), h1]
      rfl

theorem stage_direction_re_match_getLast {s : List Char}
    (h : stage_direction_re_match s = true) : s.getLast? = some '\n' := by
  cases s with
  | nil => simp [stage_direction_re_match] at h
  | cons c rest =>
    simp only [stage_direction_re_match, Bool.and_eq_true, Bool.or_eq_true,
      decide_eq_true_eq] at h
    obtain ⟨⟨hc, -⟩, hr⟩ := h
    subst hc
    have hsplit : rest.takeWhile (fun x => !(x = '\n')) ++
        rest.dropWhile (fun x => !(x = '\n')) = rest :=
      List.takeWhile_append_dropWhile _ _
    rw [← hsplit]
    cases hr with
    | inl h1 =>
      rw [getLast?_cons_append_right (by rw [h1]; simp), h1]
      rfl
    | inr h1 =>
      rw [getLast?_cons_append_right (by rw [h1]; simp), h1]
      rfl

theorem parenthetical_match_clean_line (l : List Char) :
    parenthetical_re_match (clean_line l) = false := by
  cases hb : parenthetical_re_match (clean_line l) with
  | false => rfl
  | true =>
    exfalso
    have h1 : (stripChars (removeContD (removeParens l))).getLast? =
        some '\n' := parenthetical_re_match_getLast hb
    have h2 : isSpaceChar '\n' = false := stripChars_getLast?_not_space h1
    simp [isSpaceChar] at h2

theorem stage_direction_match_clean_line (l : List Char) :
    stage_direction_re_match (clean_line l) = false := by
  cases hb : stage_direction_re_match (clean_line l) with
  | false => rfl
  | true =>
    exfalso
    have h1 : (stripChars (removeContD (removeParens l))).getLast? =
        some '\n' := stage_direction_re_match_getLast hb
    have h2 : isSpaceChar '\n' = false := stripChars_getLast?_not_space h1
    simp [isSpaceChar] at h2

/-- C8: the parenthetical and stage-direction patterns both require the
matched string to end with a newline, while the loop applies them to the
cleaned line, which `clean_line` has stripped of trailing whitespace; so
for every raw input line the two tests fail and the skip branch of the
loop (source lines 60 to 61) is unreachable. -/
theorem skip_branch_unreachable (l : List Char) :
    parenthetical_re_match (clean_line l) = false ∧
    stage_direction_re_match (clean_line l) = false :=
  ⟨parenthetical_match_clean_line l, stage_direction_match_clean_line l⟩

/- Which exceptions each stage can produce. -/

theorem pyMax_error {l : List ℚ} {e : PyError}
    (h : pyMax l = Except.error e) : e = PyError.valueError ∧ l = [] := by
  cases l with
  | nil =>
    refine ⟨?_, rfl⟩
    simp only [pyMax, Except.error.injEq] at h
    exact h.symm
  | cons x xs => simp [pyMax] at h

theorem processLine_error {wpm : ℚ} {st : ParseState} {l : List Char}
    {e : PyError} (hw : wpm ≠ 0)
    (h : processLine wpm st l = Except.error e) : e = PyError.keyError := by
  unfold processLine at h
  split at h
  · simp at h
  · split at h
    · simp at h
    · split at h
      · split at h
        · split at h
          · simp at h
          · unfold dialogueStep at h
            split at h
            · next h0 => exact absurd h0 hw
            · split at h
              · simp only [Except.map] at h
                injection h with h2
                exact h2.symm
              · simp [Except.map] at h
        · simp at h
      · simp at h

theorem processLines_error {wpm : ℚ} (hw : wpm ≠ 0) :
    ∀ (ls : List (List Char)) (st : ParseState) (e : PyError),
      processLines wpm st ls = Except.error e → e = PyError.keyError := by
  intro ls
  induction ls with
  | nil => intro st e h; simp [processLines] at h
  | cons l t ih =>
    intro st e h
    unfold processLines at h
    split at h
    · exact ih _ _ h
    · next e2 he =>
      injection h with h2
      subst h2
      exact processLine_error hw he

/-- C1: the claim says a file with no character cues (more generally, no
dialogue intervals) yields an empty mapping and a zero total without
error; the code instead raises `ValueError`, because the `max` on source
line 86 runs over an empty sequence.  Shown for the empty file and for a
two-line file with no cue. -/
theorem no_cue_input_raises_value_error :
    extract_character_data [] = Except.error PyError.valueError ∧
    extract_character_data [hiLine, blankLine] =
      Except.error PyError.valueError := by
  constructor
  · simp [extract_character_data, extract_character_data_rate, processLines,
      pyMax, allEnds, flattenPositions, initState, WORDS_PER_MINUTE]
  · have t1 : processLine 150 initState hiLine = Except.ok initState :=
      processLine_not_capturing 150 initState hiLine (by decide) (by decide)
        (by decide) rfl (by decide)
    have t2 : processLine 150 initState blankLine =
        Except.ok { initState with capturing_dialogue := false } :=
      processLine_blank 150 initState blankLine (by decide)
    simp only [extract_character_data, extract_character_data_rate,
      WORDS_PER_MINUTE, processLines, t1, t2]
    simp [pyMax, allEnds, flattenPositions, initState]

/-- C2: the claim says a parenthetical line between a cue and a dialogue
line is skipped without ending capturing, so the following dialogue line
is still attributed.  In the code the parenthetical cleans to the empty
string, so the blank-line rule ends capturing: after `JOE`, `(beat)`,
`Hello there friend` the character has no interval, no words and no
lines, and the whole call then raises `ValueError` for want of any
interval. -/
theorem parenthetical_line_ends_capturing :
    processLines WORDS_PER_MINUTE initState [joeLine, parenLine, helloLine] =
      Except.ok
        { character_data :=
            [(joeName, { positions := [], word_count := 0, line_count := 0 })],
          current_time := 0, current_character := some joeName,
          capturing_dialogue := false } ∧
    extract_character_data [joeLine, parenLine, helloLine] =
      Except.error PyError.valueError := by
  have t1 : processLine 150 initState joeLine = Except.ok
      { character_data :=
          [(joeName, { positions := [], word_count := 0, line_count := 0 })],
        current_time := 0, current_character := some joeName,
        capturing_dialogue := true } := by
    rw [processLine_cue 150 initState joeLine (by decide)]
    simp [cueStep, initState, lookupChar,
      (by decide : stripChars (clean_line joeLine) = joeName)]
  have t2 : processLine 150
      { character_data :=
          [(joeName, { positions := [], word_count := 0, line_count := 0 })],
        current_time := 0, current_character := some joeName,
        capturing_dialogue := true } parenLine = Except.ok
      { character_data :=
          [(joeName, { positions := [], word_count := 0, line_count := 0 })],
        current_time := 0, current_character := some joeName,
        capturing_dialogue := false } :=
    processLine_blank 150 _ parenLine (by decide)
  have t3 : processLine 150
      { character_data :=
          [(joeName, { positions := [], word_count := 0, line_count := 0 })],
        current_time := 0, current_character := some joeName,
        capturing_dialogue := false } helloLine = Except.ok
      { character_data :=
          [(joeName, { positions := [], word_count := 0, line_count := 0 })],
        current_time := 0, current_character := some joeName,
        capturing_dialogue := false } :=
    processLine_not_capturing 150 _ helloLine (by decide) (by decide)
      (by decide) rfl (by decide)
  constructor
  · simp only [WORDS_PER_MINUTE, processLines, t1, t2, t3]
  · simp only [extract_character_data, extract_character_data_rate,
      WORDS_PER_MINUTE, processLines, t1, t2, t3]
    simp [pyMax, allEnds, flattenPositions]

/-- C3: the claim says a stage-direction line ends capturing and is not
counted as dialogue, and a dialogue-shaped line after it is inert.  In
the code `.CUT TO:` fails every pattern on the cleaned line and, since
capturing is still on, is itself counted as a two-word dialogue line, and
the following line is counted too. -/
theorem stage_direction_counted_as_dialogue :
    extract_character_data [joeLine, hiThereLine, cutToLine, byeByeLine] =
      Except.ok
        ([(joeName,
            { positions := [(0, 4/5), (4/5, 8/5), (8/5, 12/5)],
              word_count := 6, line_count := 3 })],
         12/5) := by
  have t1 : processLine 150 initState joeLine = Except.ok
      { character_data :=
          [(joeName, { positions := [], word_count := 0, line_count := 0 })],
        current_time := 0, current_character := some joeName,
        capturing_dialogue := true } := by
    rw [processLine_cue 150 initState joeLine (by decide)]
    simp [cueStep, initState, lookupChar,
      (by decide : stripChars (clean_line joeLine) = joeName)]
  have t2 : processLine 150
      { character_data :=
          [(joeName, { positions := [], word_count := 0, line_count := 0 })],
        current_time := 0, current_character := some joeName,
        capturing_dialogue := true } hiThereLine = Except.ok
      { character_data :=
          [(joeName,
            { positions := [(0, 4/5)], word_count := 2, line_count := 1 })],
        current_time := 4/5, current_character := some joeName,
        capturing_dialogue := true } := by
    rw [processLine_dialogue 150 _ hiThereLine joeName
      { positions := [], word_count := 0, line_count := 0 }
      (by decide) (by decide) (by decide) rfl rfl (by decide) (by norm_num)
      (by simp [lookupChar]) (by decide)]
    simp [updateChar,
      (by decide : count_words (stripChars (clean_line hiThereLine)) = 2)]
    norm_num
  have t3 : processLine 150
      { character_data :=
          [(joeName,
            { positions := [(0, 4/5)], word_count := 2, line_count := 1 })],
        current_time := 4/5, current_character := some joeName,
        capturing_dialogue := true } cutToLine = Except.ok
      { character_data :=
          [(joeName,
            { positions := [(0, 4/5), (4/5, 8/5)], word_count := 4,
              line_count := 2 })],
        current_time := 8/5, current_character := some joeName,
        capturing_dialogue := true } := by
    rw [processLine_dialogue 150 _ cutToLine joeName
      { positions := [(0, 4/5)], word_count := 2, line_count := 1 }
      (by decide) (by decide) (by decide) rfl rfl (by decide) (by norm_num)
      (by simp [lookupChar]) (by decide)]
    simp [updateChar,
      (by decide : count_words (stripChars (clean_line cutToLine)) = 2)]
    norm_num
  have t4 : processLine 150
      { character_data :=
          [(joeName,
            { positions := [(0, 4/5), (4/5, 8/5)], word_count := 4,
              line_count := 2 })],
        current_time := 8/5, current_character := some joeName,
        capturing_dialogue := true } byeByeLine = Except.ok
      { character_data :=
          [(joeName,
            { positions := [(0, 4/5), (4/5, 8/5), (8/5, 12/5)],
              word_count := 6, line_count := 3 })],
        current_time := 12/5, current_character := some joeName,
        capturing_dialogue := true } := by
    rw [processLine_dialogue 150 _ byeByeLine joeName
      { positions := [(0, 4/5), (4/5, 8/5)], word_count := 4, line_count := 2 }
      (by decide) (by decide) (by decide) rfl rfl (by decide) (by norm_num)
      (by simp [lookupChar]) (by decide)]
    simp [updateChar,
      (by decide : count_words (stripChars (clean_line byeByeLine)) = 2)]
    norm_num
  simp only [extract_character_data, extract_character_data_rate,
    WORDS_PER_MINUTE, processLines, t1, t2, t3, t4, allEnds,
    flattenPositions, pyMax]
  norm_num [max_def]

/-- C4 counterexample: the claim says a non-positive rate is rejected
with a configuration error before any parsing work.  Generalizing the
module constant to a rate parameter, a zero rate instead raises
`ZeroDivisionError` at the first dialogue line (after the cue has already
been processed), and on an empty input no rate check happens at all: the
call fails only at the final `max` with `ValueError`. -/
theorem zero_rate_not_rejected_before_parsing :
    extract_character_data_rate 0 [joeLine, helloLine, blankLine] =
      Except.error PyError.zeroDivisionError ∧
    extract_character_data_rate 0 [] = Except.error PyError.valueError := by
  constructor
  · have t1 : processLine 0 initState joeLine = Except.ok
        { character_data :=
            [(joeName, { positions := [], word_count := 0, line_count := 0 })],
          current_time := 0, current_character := some joeName,
          capturing_dialogue := true } := by
      rw [processLine_cue 0 initState joeLine (by decide)]
      simp [cueStep, initState, lookupChar,
        (by decide : stripChars (clean_line joeLine) = joeName)]
    have t2 : processLine 0
        { character_data :=
            [(joeName, { positions := [], word_count := 0, line_count := 0 })],
          current_time := 0, current_character := some joeName,
          capturing_dialogue := true } helloLine =
        Except.error PyError.zeroDivisionError :=
      processLine_dialogue_zero_rate _ helloLine joeName (by decide)
        (by decide) (by decide) rfl rfl (by decide) (by decide)
    simp only [extract_character_data_rate, processLines, t1, t2]
  · simp [extract_character_data_rate, processLines, pyMax, allEnds,
      flattenPositions, initState]

/-- C4 amended: the code takes no rate parameter and performs no rate
validation; it divides by the module constant `WORDS_PER_MINUTE = 150`,
which is positive, so no division by zero can occur for any input. -/
theorem fixed_positive_rate_never_divides_by_zero :
    WORDS_PER_MINUTE = 150 ∧ 0 < WORDS_PER_MINUTE ∧
    ∀ lines, extract_character_data lines ≠
      Except.error PyError.zeroDivisionError := by
  have hw : WORDS_PER_MINUTE ≠ 0 := by norm_num [WORDS_PER_MINUTE]
  refine ⟨rfl, by norm_num [WORDS_PER_MINUTE], ?_⟩
  intro lines h
  unfold extract_character_data extract_character_data_rate at h
  split at h
  · next e2 he2 =>
    injection h with h2
    have h3 := processLines_error hw _ _ _ he2
    rw [h3] at h2
    cases h2
  · split at h
    · next e2 he2 =>
      injection h with h2
      have h3 := (pyMax_error he2).1
      rw [h3] at h2
      cases h2
    · simp at h

/-- C5: scenario one, exactly as mandated: for `JOE`, `Hello there
friend`, blank at 150 words per minute, the parse yields one character
with the single interval from `0` to `6/5 = 1.2` seconds, three words and
one dialogue line, with total `6/5`; and `6/5` is the value of
`3 / 150 * 60`, the mandated duration arithmetic. -/
theorem scenario_one_exact :
    extract_character_data [joeLine, helloLine, blankLine] =
      Except.ok ([(joeName,
        { positions := [(0, 6/5)], word_count := 3, line_count := 1 })],
        6/5) ∧
    (6/5 : ℚ) = 3 / 150 * 60 ∧ (6/5 : ℚ) = 1.2 := by
  refine ⟨?_, by norm_num, by norm_num⟩
  have t1 : processLine 150 initState joeLine = Except.ok
      { character_data :=
          [(joeName, { positions := [], word_count := 0, line_count := 0 })],
        current_time := 0, current_character := some joeName,
        capturing_dialogue := true } := by
    rw [processLine_cue 150 initState joeLine (by decide)]
    simp [cueStep, initState, lookupChar,
      (by decide : stripChars (clean_line joeLine) = joeName)]
  have t2 : processLine 150
      { character_data :=
          [(joeName, { positions := [], word_count := 0, line_count := 0 })],
        current_time := 0, current_character := some joeName,
        capturing_dialogue := true } helloLine = Except.ok
      { character_data :=
          [(joeName,
            { positions := [(0, 6/5)], word_count := 3, line_count := 1 })],
        current_time := 6/5, current_character := some joeName,
        capturing_dialogue := true } := by
    rw [processLine_dialogue 150 _ helloLine joeName
      { positions := [], word_count := 0, line_count := 0 }
      (by decide) (by decide) (by decide) rfl rfl (by decide) (by norm_num)
      (by simp [lookupChar]) (by decide)]
    simp [updateChar,
      (by decide : count_words (stripChars (clean_line helloLine)) = 3)]
    norm_num
  have t3 : processLine 150
      { character_data :=
          [(joeName,
            { positions := [(0, 6/5)], word_count := 3, line_count := 1 })],
        current_time := 6/5, current_character := some joeName,
        capturing_dialogue := true } blankLine = Except.ok
      { character_data :=
          [(joeName,
            { positions := [(0, 6/5)], word_count := 3, line_count := 1 })],
        current_time := 6/5, current_character := some joeName,
        capturing_dialogue := false } := by
    rw [processLine_blank 150 _ blankLine (by decide)]
  simp only [extract_character_data, extract_character_data_rate,
    WORDS_PER_MINUTE, processLines, t1, t2, t3, allEnds, flattenPositions,
    pyMax]
  norm_num

/- Remaining control paths of `processLine`, and an exhaustive
characterization of its successful outcomes. -/

theorem processLine_no_character (wpm : ℚ) (st : ParseState) (l : List Char)
    (hm : character_re_match (clean_line l) = false)
    (hp : parenthetical_re_match (clean_line l) = false)
    (hs : stage_direction_re_match (clean_line l) = false)
    (hc : st.capturing_dialogue = true)
    (hcc : st.current_character = none)
    (hne : clean_line l ≠ []) :
    processLine wpm st l = Except.ok st := by
  unfold processLine
  rw [hm, hp, hs, hc, hcc]
  simp [blankCheck_of_ne_nil _ hne, hne, List.isEmpty_iff]

theorem processLine_empty_character (wpm : ℚ) (st : ParseState)
    (l : List Char)
    (hm : character_re_match (clean_line l) = false)
    (hp : parenthetical_re_match (clean_line l) = false)
    (hs : stage_direction_re_match (clean_line l) = false)
    (hc : st.capturing_dialogue = true)
    (hcc : st.current_character = some [])
    (hne : clean_line l ≠ []) :
    processLine wpm st l = Except.ok st := by
  unfold processLine
  rw [hm, hp, hs, hc, hcc]
  simp [blankCheck_of_ne_nil _ hne, hne, List.isEmpty_iff]

theorem processLine_dialogue_missing (wpm : ℚ) (st : ParseState)
    (l ch : List Char)
    (hm : character_re_match (clean_line l) = false)
    (hp : parenthetical_re_match (clean_line l) = false)
    (hs : stage_direction_re_match (clean_line l) = false)
    (hc : st.capturing_dialogue = true)
    (hch : st.current_character = some ch)
    (hch2 : ch ≠ [])
    (hw : wpm ≠ 0)
    (hlk : lookupChar st.character_data ch = none)
    (hne : clean_line l ≠ []) :
    processLine wpm st l = Except.error PyError.keyError := by
  unfold processLine
  rw [hm, hp, hs, hc, hch]
  simp only [List.isEmpty_iff, hne, hch2, ite_false, if_false,
    Bool.true_and, Bool.not_eq_true]
  unfold dialogueStep
  rw [if_neg hw, hlk]
  simp [Except.map, hne, List.isEmpty_iff, hch2]

theorem processLine_cases {wpm : ℚ} {st st' : ParseState} {l : List Char}
    (h : processLine wpm st l = Except.ok st') :
    (st'.current_time = st.current_time ∧
      st'.character_data = st.character_data) ∨
    (∃ n, st'.current_time = st.current_time ∧
      lookupChar st.character_data n = none ∧
      st'.character_data = st.character_data ++
        [(n, { positions := [], word_count := 0, line_count := 0 })]) ∨
    (∃ (c : List Char) (r : CharRecord) (w : ℕ),
      lookupChar st.character_data c = some r ∧ wpm ≠ 0 ∧
      st'.current_time = st.current_time + (w : ℚ) / wpm * 60 ∧
      st'.character_data = updateChar st.character_data c (fun rec =>
        { positions := rec.positions ++
            [(st.current_time, st.current_time + (w : ℚ) / wpm * 60)],
          word_count := rec.word_count + w,
          line_count := rec.line_count + 1 })) := by
  by_cases hm : character_re_match (clean_line l) = true
  · rw [processLine_cue wpm st l hm] at h
    injection h with h2
    subst h2
    by_cases hlk : lookupChar st.character_data (stripChars (clean_line l)) =
      none
    · exact Or.inr (Or.inl ⟨stripChars (clean_line l), rfl, hlk,
        by simp [cueStep, hlk]⟩)
    · exact Or.inl ⟨rfl, by simp [cueStep, hlk]⟩
  · have hm2 : character_re_match (clean_line l) = false := by
      simpa using hm
    by_cases hb : clean_line l = []
    · rw [processLine_blank wpm st l hb] at h
      injection h with h2
      subst h2
      exact Or.inl ⟨rfl, rfl⟩
    · have hp := parenthetical_match_clean_line l
      have hs := stage_direction_match_clean_line l
      by_cases hcap : st.capturing_dialogue = true
      · cases hcc : st.current_character with
        | none =>
          rw [processLine_no_character wpm st l hm2 hp hs hcap hcc hb] at h
          injection h with h2
          subst h2
          exact Or.inl ⟨rfl, rfl⟩
        | some ch =>
          by_cases hch : ch = []
          · subst hch
            rw [processLine_empty_character wpm st l hm2 hp hs hcap hcc hb]
              at h
            injection h with h2
            subst h2
            exact Or.inl ⟨rfl, rfl⟩
          · by_cases hw : wpm = 0
            · subst hw
              rw [processLine_dialogue_zero_rate st l ch hm2 hp hs hcap hcc
                hch hb] at h
              simp at h
            · cases hlk : lookupChar st.character_data ch with
              | none =>
                rw [processLine_dialogue_missing wpm st l ch hm2 hp hs hcap
                  hcc hch hw hlk hb] at h
                simp at h
              | some r =>
                rw [processLine_dialogue wpm st l ch r hm2 hp hs hcap hcc hch
                  hw hlk hb] at h
                injection h with h2
                subst h2
                exact Or.inr (Or.inr ⟨ch, r,
                  count_words (stripChars (clean_line l)), hlk, hw, rfl, rfl⟩)
      · have hcap2 : st.capturing_dialogue = false := by simpa using hcap
        rw [processLine_not_capturing wpm st l hm2 hp hs hcap2 hb] at h
        injection h with h2
        subst h2
        exact Or.inl ⟨rfl, rfl⟩

/- The interval-ordering invariant (claim about `end >= start` and
non-decreasing starts). -/

theorem mem_updateChar {d : List (List Char × CharRecord)} {k : List Char}
    {g : CharRecord → CharRecord} :
    ∀ p ∈ updateChar d k g, p ∈ d ∨ ∃ q ∈ d, p = (q.1, g q.2) := by
  induction d with
  | nil => intro p hp; simp [updateChar] at hp
  | cons hd tl ih =>
    intro p hp
    obtain ⟨k2, r⟩ := hd
    simp only [updateChar] at hp
    by_cases hk : k2 = k
    · rw [if_pos hk] at hp
      rcases List.mem_cons.mp hp with h1 | h1
      · exact Or.inr ⟨(k2, r), List.mem_cons_self _ _, by rw [h1]⟩
      · exact Or.inl (List.mem_cons_of_mem _ h1)
    · rw [if_neg hk] at hp
      rcases List.mem_cons.mp hp with h1 | h1
      · exact Or.inl (by rw [h1]; exact List.mem_cons_self _ _)
      · rcases ih p h1 with h2 | ⟨q, hq, h3⟩
        · exact Or.inl (List.mem_cons_of_mem _ h2)
        · exact Or.inr ⟨q, List.mem_cons_of_mem _ hq, h3⟩

theorem RecordWithin_mono {t t1 : ℚ} {r : CharRecord} (h : RecordWithin t r)
    (htt : t ≤ t1) : RecordWithin t1 r := by
  obtain ⟨h1, h2⟩ := h
  refine ⟨fun iv hiv => ?_, h2⟩
  obtain ⟨a, b, c⟩ := h1 iv hiv
  exact ⟨a, b, le_trans c htt⟩

theorem StateWithin_initState : StateWithin initState := by
  constructor
  · norm_num [initState]
  · intro p hp
    simp [initState] at hp

theorem processLine_StateWithin {wpm : ℚ} (hw : 0 < wpm)
    {st st' : ParseState} {l : List Char}
    (h : processLine wpm st l = Except.ok st') (hst : StateWithin st) :
    StateWithin st' ∧ st.current_time ≤ st'.current_time := by
  obtain ⟨h0, hrec⟩ := hst
  rcases processLine_cases h with ⟨ht, hd⟩ | ⟨n, ht, hlk, hd⟩ |
    ⟨c, r, w, hlk, hw0, ht, hd⟩
  · refine ⟨⟨?_, ?_⟩, ?_⟩
    · rw [ht]; exact h0
    · rw [ht, hd]; exact hrec
    · rw [ht]
  · refine ⟨⟨?_, ?_⟩, ?_⟩
    · rw [ht]; exact h0
    · rw [ht, hd]
      intro p hp
      rcases List.mem_append.mp hp with h1 | h1
      · exact hrec p h1
      · simp only [List.mem_singleton] at h1
        rw [h1]
        exact ⟨fun iv hiv => absurd hiv (by simp), by simp⟩
    · rw [ht]
  · have hdur : 0 ≤ (w : ℚ) / wpm * 60 :=
      mul_nonneg (div_nonneg (by positivity) (le_of_lt hw)) (by norm_num)
    refine ⟨⟨?_, ?_⟩, ?_⟩
    · rw [ht]; linarith
    · intro p hp
      rw [hd] at hp
      rcases mem_updateChar p hp with h1 | ⟨q, hq, h2⟩

      · exact RecordWithin_mono (hrec p h1) (by rw [ht]; linarith)
      · rw [h2]
        obtain ⟨hq1, hq2⟩ := hrec q hq
        constructor
        · intro iv hiv
          simp only [List.mem_append, List.mem_singleton] at hiv
          rcases hiv with h3 | h3
          · obtain ⟨a, b, c⟩ := hq1 iv h3
            exact ⟨a, b, by rw [ht]; linarith⟩
          · rw [h3]
            refine ⟨h0, by linarith, by rw [ht]⟩
        · show List.Pairwise _ (q.2.positions ++ [_])
          rw [List.pairwise_append]
          refine ⟨hq2, by simp, ?_⟩
          intro a ha b hb
          simp only [List.mem_singleton] at hb
          rw [hb]
          show a.1 ≤ st.current_time
          obtain ⟨_, hab, hat⟩ := hq1 a ha
          linarith
    · rw [ht]; linarith

theorem processLines_StateWithin {wpm : ℚ} (hw : 0 < wpm) :
    ∀ (ls : List (List Char)) (st st' : ParseState),
      processLines wpm st ls = Except.ok st' → StateWithin st →
      StateWithin st' := by
  intro ls
  induction ls with
  | nil =>
    intro st st' h hst
    simp only [processLines, Except.ok.injEq] at h
    rw [← h]
    exact hst
  | cons l t ih =>
    intro st st' h hst
    unfold processLines at h
    split at h
    · next st2 hst2 =>
      exact ih _ _ h (processLine_StateWithin hw hst2 hst).1
    · simp at h

/-- C6: in every successful parse, every produced interval has its end no
earlier than its start, and within any one character the interval starts
are in non-decreasing order (the running cursor never decreases). -/
theorem extract_intervals_sorted (lines : List (List Char))
    (data : List (List Char × CharRecord)) (total : ℚ)
    (h : extract_character_data lines = Except.ok (data, total)) :
    ∀ p ∈ data, (∀ iv ∈ p.2.positions, iv.1 ≤ iv.2) ∧
      List.Pairwise (fun a b : ℚ × ℚ => a.1 ≤ b.1) p.2.positions := by
  unfold extract_character_data extract_character_data_rate at h
  split at h
  · simp at h
  · next st hst =>
    split at h
    · simp at h
    · next total0 hmax =>
      injection h with h2
      injection h2 with h3 h4
      subst h3
      have hsw := processLines_StateWithin
        (by norm_num [WORDS_PER_MINUTE]) lines initState st hst
        StateWithin_initState
      intro p hp
      obtain ⟨hA, hB⟩ := hsw.2 p hp
      exact ⟨fun iv hiv => (hA iv hiv).2.1, hB⟩

/- Global contiguity of the produced intervals: the time cursor threads a
single gap-free chain through the whole parse. -/

theorem flattenPositions_append_empty (d : List (List Char × CharRecord))
    (n : List Char) :
    flattenPositions (d ++
      [(n, { positions := [], word_count := 0, line_count := 0 })]) =
      flattenPositions d := by
  simp [flattenPositions]

theorem flattenPositions_updateChar {d : List (List Char × CharRecord)}
    {k : List Char} {r0 : CharRecord} (hlk : lookupChar d k = some r0)
    (iv : ℚ × ℚ) (g : CharRecord → CharRecord)
    (hg : ∀ r, (g r).positions = r.positions ++ [iv]) :
    (flattenPositions (updateChar d k g)).Perm
      (flattenPositions d ++ [iv]) := by
  induction d with
  | nil => simp [lookupChar] at hlk
  | cons hd tl ih =>
    obtain ⟨k2, r⟩ := hd
    by_cases hk : k2 = k
    · simp only [updateChar, if_pos hk, flattenPositions, List.map_cons,
        List.flatten_cons]
      rw [hg r, List.append_assoc, List.append_assoc]
      exact List.Perm.append_left _ List.perm_append_comm
    · have hlk2 : lookupChar tl k = some r0 := by
        simpa [lookupChar, hk] using hlk
      have ih2 := ih hlk2
      simp only [flattenPositions] at ih2
      simp only [updateChar, if_neg hk, flattenPositions, List.map_cons,
        List.flatten_cons]
      rw [List.append_assoc]
      exact List.Perm.append_left _ ih2

theorem processLine_flatten {wpm : ℚ} (hw : 0 < wpm) {st st' : ParseState}
    {l : List Char} (h : processLine wpm st l = Except.ok st') :
    (st'.current_time = st.current_time ∧
      flattenPositions st'.character_data =
        flattenPositions st.character_data) ∨
    (st.current_time ≤ st'.current_time ∧
      (flattenPositions st'.character_data).Perm
        (flattenPositions st.character_data ++
          [(st.current_time, st'.current_time)])) := by
  rcases processLine_cases h with ⟨ht, hd⟩ | ⟨n, ht, hlk, hd⟩ |
    ⟨c, r, w, hlk, hw0, ht, hd⟩
  · exact Or.inl ⟨ht, by rw [hd]⟩
  · exact Or.inl ⟨ht, by rw [hd, flattenPositions_append_empty]⟩
  · have hdur : 0 ≤ (w : ℚ) / wpm * 60 :=
      mul_nonneg (div_nonneg (by positivity) (le_of_lt hw)) (by norm_num)
    refine Or.inr ⟨by rw [ht]; linarith, ?_⟩
    rw [hd, ht]
    exact flattenPositions_updateChar hlk
      (st.current_time, st.current_time + (w : ℚ) / wpm * 60) _
      (fun r => rfl)

theorem chainFrom_append {t : ℚ} {tr1 tr2 : List (ℚ × ℚ)}
    (h1 : chainFrom t tr1) (h2 : chainFrom (lastEnd t tr1) tr2) :
    chainFrom t (tr1 ++ tr2) := by
  induction tr1 generalizing t with
  | nil => exact h2
  | cons iv rest ih =>
    obtain ⟨ha, hb, hc⟩ := h1
    exact ⟨ha, hb, ih hc h2⟩

theorem chainFrom_le_lastEnd {t : ℚ} {tr : List (ℚ × ℚ)}
    (h : chainFrom t tr) : t ≤ lastEnd t tr := by
  induction tr generalizing t with
  | nil => exact le_refl t
  | cons iv rest ih =>
    obtain ⟨ha, hb, hc⟩ := h
    exact le_trans hb (ih hc)

theorem chainFrom_end_le {t : ℚ} {tr : List (ℚ × ℚ)} (h : chainFrom t tr) :
    ∀ iv ∈ tr, iv.2 ≤ lastEnd t tr := by
  induction tr generalizing t with
  | nil => intro iv hiv; simp at hiv
  | cons jv rest ih =>
    intro iv hiv
    obtain ⟨ha, hb, hc⟩ := h
    rcases List.mem_cons.mp hiv with h1 | h1
    · rw [h1]
      exact chainFrom_le_lastEnd hc
    · exact ih hc iv h1

theorem lastEnd_mem {tr : List (ℚ × ℚ)} (h : tr ≠ []) (t : ℚ) :
    ∃ iv ∈ tr, iv.2 = lastEnd t tr := by
  induction tr generalizing t with
  | nil => cases h rfl
  | cons jv rest ih =>
    cases rest with
    | nil => exact ⟨jv, by simp, rfl⟩
    | cons kv rest2 =>
      obtain ⟨iv, hiv, he⟩ := ih (by simp) jv.2
      exact ⟨iv, List.mem_cons_of_mem _ hiv, he⟩

theorem le_foldl_max_seed (x : ℚ) (xs : List ℚ) : x ≤ xs.foldl max x := by
  induction xs generalizing x with
  | nil => exact le_refl x
  | cons y ys ih =>
    calc x ≤ max x y := le_max_left x y
      _ ≤ ys.foldl max (max x y) := ih (max x y)

theorem mem_le_foldl_max (x : ℚ) (xs : List ℚ) :
    ∀ y ∈ xs, y ≤ xs.foldl max x := by
  induction xs generalizing x with
  | nil => intro y hy; simp at hy
  | cons z zs ih =>
    intro y hy
    rcases List.mem_cons.mp hy with h1 | h1
    · rw [h1]
      exact le_trans (le_max_right x z) (le_foldl_max_seed (max x z) zs)
    · exact ih (max x z) y h1

theorem foldl_max_mem (x : ℚ) (xs : List ℚ) : xs.foldl max x ∈ x :: xs := by
  induction xs generalizing x with
  | nil => simp
  | cons y ys ih =>
    have h := ih (max x y)
    show ys.foldl max (max x y) ∈ x :: y :: ys
    rcases List.mem_cons.mp h with h1 | h1
    · rw [h1]
      rcases max_choice x y with h2 | h2 <;> rw [h2]
      · exact List.mem_cons_self _ _
      · exact List.mem_cons_of_mem _ (List.mem_cons_self _ _)
    · exact List.mem_cons_of_mem _ (List.mem_cons_of_mem _ h1)

theorem pyMax_ok {l : List ℚ} {m : ℚ} (h : pyMax l = Except.ok m) :
    m ∈ l ∧ ∀ y ∈ l, y ≤ m := by
  cases l with
  | nil => simp [pyMax] at h
  | cons x xs =>
    simp only [pyMax, Except.ok.injEq] at h
    subst h
    refine ⟨foldl_max_mem x xs, ?_⟩
    intro y hy
    rcases List.mem_cons.mp hy with h1 | h1
    · rw [h1]
      exact le_foldl_max_seed x xs
    · exact mem_le_foldl_max x xs y h1

theorem processLines_trace {wpm : ℚ} (hw : 0 < wpm) :
    ∀ (ls : List (List Char)) (st st' : ParseState),
      processLines wpm st ls = Except.ok st' →
      ∃ tr, chainFrom st.current_time tr ∧
        (flattenPositions st'.character_data).Perm
          (flattenPositions st.character_data ++ tr) ∧
        st'.current_time = lastEnd st.current_time tr := by
  intro ls
  induction ls with
  | nil =>
    intro st st' h
    simp only [processLines, Except.ok.injEq] at h
    subst h
    exact ⟨[], trivial, by simp, rfl⟩
  | cons l t ih =>
    intro st st' h
    unfold processLines at h
    split at h
    · next st2 hst2 =>
      obtain ⟨tr, hc, hperm, hle⟩ := ih st2 st' h
      rcases processLine_flatten hw hst2 with ⟨ht, hd⟩ | ⟨ht, hd⟩
      · rw [ht] at hc hle
        rw [hd] at hperm
        exact ⟨tr, hc, hperm, hle⟩
      · refine ⟨(st.current_time, st2.current_time) :: tr,
          ⟨rfl, ht, hc⟩, ?_, hle⟩
        have p2 : (flattenPositions st2.character_data ++ tr).Perm
            (flattenPositions st.character_data ++
              ((st.current_time, st2.current_time) :: tr)) := by
          have e2 : flattenPositions st.character_data ++
              ((st.current_time, st2.current_time) :: tr) =
              (flattenPositions st.character_data ++
                [(st.current_time, st2.current_time)]) ++ tr := by
            rw [List.append_assoc]
            rfl
          rw [e2]
          exact List.Perm.append_right tr hd
        exact hperm.trans p2
    · simp at h

/-- C10: in every successful parse the intervals across all characters,
reordered by production order, form one gap-free chain starting at zero
(each start equals the previous end, ends never precede starts), and the
reported total is the final end of that chain, the maximum interval
end. -/
theorem extract_globally_contiguous (lines : List (List Char))
    (data : List (List Char × CharRecord)) (total : ℚ)
    (h : extract_character_data lines = Except.ok (data, total)) :
    ∃ tr, tr ≠ [] ∧ chainFrom 0 tr ∧
      (flattenPositions data).Perm tr ∧ total = lastEnd 0 tr := by
  unfold extract_character_data extract_character_data_rate at h
  split at h
  · simp at h
  · next st hst =>
    split at h
    · simp at h
    · next total0 hmax =>
      injection h with h2
      injection h2 with h3 h4
      subst h3
      subst h4
      obtain ⟨tr, hc, hperm, hle⟩ := processLines_trace
        (by norm_num [WORDS_PER_MINUTE]) lines initState st hst
      have hperm2 : (flattenPositions st.character_data).Perm tr := by
        simpa [initState, flattenPositions] using hperm
      have hends : (allEnds st.character_data).Perm
          (tr.map fun iv => iv.2) := by
        unfold allEnds
        exact hperm2.map _
      obtain ⟨hm_mem, hm_le⟩ := pyMax_ok hmax
      have htr_ne : tr ≠ [] := by
        intro h0
        subst h0
        have hnil : flattenPositions st.character_data = [] :=
          List.Perm.eq_nil hperm2
        simp [allEnds, hnil] at hm_mem
      have hmem2 : total0 ∈ tr.map (fun iv => iv.2) := hends.mem_iff.mp hm_mem
      obtain ⟨iv, hiv, hive⟩ := List.mem_map.mp hmem2
      have h5 : total0 ≤ lastEnd 0 tr := by
        rw [← hive]
        exact chainFrom_end_le hc iv hiv
      obtain ⟨jv, hjv, hje⟩ := lastEnd_mem htr_ne 0
      have h6 : lastEnd 0 tr ≤ total0 := by
        rw [← hje]
        exact hm_le _ (hends.mem_iff.mpr (List.mem_map.mpr ⟨jv, hjv, rfl⟩))
      exact ⟨tr, htr_ne, hc, hperm2, le_antisymm h5 h6⟩

/- The cue branch: switching characters mid-capture and reusing
records. -/

theorem cue_switch_and_reuse (st st' : ParseState) (l : List Char)
    (hcue : character_re_match (clean_line l) = true)
    (h : processLine WORDS_PER_MINUTE st l = Except.ok st') :
    st'.capturing_dialogue = true ∧
    st'.current_character = some (stripChars (clean_line l)) ∧
    st'.current_time = st.current_time ∧
    (lookupChar st.character_data (stripChars (clean_line l)) ≠ none →
      st'.character_data = st.character_data) ∧
    (lookupChar st.character_data (stripChars (clean_line l)) = none →
      st'.character_data = st.character_data ++
        [(stripChars (clean_line l),
          { positions := [], word_count := 0, line_count := 0 })]) := by
  rw [processLine_cue _ _ _ hcue] at h
  injection h with h2
  subst h2
  refine ⟨rfl, rfl, rfl, ?_, ?_⟩
  · intro hlk
    simp [cueStep, hlk]
  · intro hlk
    simp [cueStep, hlk]

theorem cue_switch_and_reuse_witness :
    processLine WORDS_PER_MINUTE switchStateBefore joeLine =
      Except.ok switchStateAfter ∧
    switchStateAfter.capturing_dialogue = true ∧
    switchStateAfter.current_character = some joeName ∧
    switchStateAfter.character_data = switchStateBefore.character_data := by
  have hstep : processLine WORDS_PER_MINUTE switchStateBefore joeLine =
      Except.ok switchStateAfter := by
    rw [processLine_cue _ _ _ (by decide)]
    simp [cueStep, switchStateBefore, switchStateAfter, lookupChar,
      (by decide : stripChars (clean_line joeLine) = joeName), joeName]
  have hmain := cue_switch_and_reuse switchStateBefore switchStateAfter
    joeLine (by decide) hstep
  refine ⟨hstep, hmain.1, ?_, ?_⟩
  · rw [hmain.2.1]
    decide
  · exact hmain.2.2.2.1 (by
      simp [switchStateBefore, lookupChar, joeName,
        (by decide : stripChars (clean_line joeLine) = joeName)])

/- The all-uppercase classification: the cue test precedes every other
test, so a line whose cleaned text is all cue-class characters is a cue
in every parser state. -/

theorem takeWhile_all {p : Char → Bool} :
    ∀ {l : List Char}, (∀ c ∈ l, p c = true) → l.takeWhile p = l := by
  intro l
  induction l with
  | nil => intro h; rfl
  | cons c t ih =>
    intro h
    rw [List.takeWhile_cons, if_pos (h c (List.mem_cons_self _ _)),
      ih (fun x hx => h x (List.mem_cons_of_mem _ hx))]

theorem dropWhile_all {p : Char → Bool} :
    ∀ {l : List Char}, (∀ c ∈ l, p c = true) → l.dropWhile p = [] := by
  intro l
  induction l with
  | nil => intro h; rfl
  | cons c t ih =>
    intro h
    rw [List.dropWhile_cons, if_pos (h c (List.mem_cons_self _ _))]
    exact ih (fun x hx => h x (List.mem_cons_of_mem _ hx))

theorem dropWhile_eq_self_of_head {p : Char → Bool} {l : List Char}
    (h : ∀ x, l.head? = some x → p x = false) : l.dropWhile p = l := by
  cases l with
  | nil => rfl
  | cons c t =>
    have hc := h c rfl
    rw [List.dropWhile_cons, if_neg (by simp [hc])]

theorem stripChars_eq_self {s : List Char}
    (hh : ∀ x, s.head? = some x → isSpaceChar x = false)
    (hl : ∀ x, s.getLast? = some x → isSpaceChar x = false) :
    stripChars s = s := by
  unfold stripChars
  rw [dropWhile_eq_self_of_head hh]
  rw [dropWhile_eq_self_of_head (fun x hx => hl x (by
    rw [List.head?_reverse] at hx
    exact hx))]
  exact List.reverse_reverse s

theorem stripChars_idem (s : List Char) :
    stripChars (stripChars s) = stripChars s :=
  stripChars_eq_self (fun _ hx => stripChars_head?_not_space hx)
    (fun _ hx => stripChars_getLast?_not_space hx)

theorem stripChars_clean_line (l : List Char) :
    stripChars (clean_line l) = clean_line l :=
  stripChars_idem (removeContD (removeParens l))

theorem lookupChar_append_self {d : List (List Char × CharRecord)}
    {k : List Char} (h : lookupChar d k = none) (r : CharRecord) :
    lookupChar (d ++ [(k, r)]) k = some r := by
  induction d with
  | nil => simp [lookupChar]
  | cons hd tl ih =>
    obtain ⟨k2, r2⟩ := hd
    by_cases hk : k2 = k
    · simp [lookupChar, hk] at h
    · simp only [List.cons_append, lookupChar, if_neg hk]
      exact ih (by simpa [lookupChar, hk] using h)

/-- C9: a line whose cleaned text is nonempty and drawn entirely from
uppercase letters, digits, spaces and the hash sign is classified as a
character cue in every parser state (the cue test runs first), so it
creates or selects a record named by that text and redirects subsequent
dialogue attribution to it. -/
theorem all_cue_chars_is_character_cue (st : ParseState) (l : List Char)
    (h1 : clean_line l ≠ [])
    (h2 : ∀ c ∈ clean_line l, isCueChar c = true) :
    character_re_match (clean_line l) = true ∧
    processLine WORDS_PER_MINUTE st l =
      Except.ok (cueStep st (clean_line l)) ∧
    (cueStep st (clean_line l)).current_character =
      some (clean_line l) ∧
    (cueStep st (clean_line l)).capturing_dialogue = true ∧
    lookupChar (cueStep st (clean_line l)).character_data (clean_line l) ≠
      none := by
  have hcue : character_re_match (clean_line l) = true := by
    unfold character_re_match
    rw [takeWhile_all h2, dropWhile_all h2]
    simp [h1, List.isEmpty_iff]
  refine ⟨hcue, processLine_cue _ _ _ hcue, ?_, rfl, ?_⟩
  · simp [cueStep, stripChars_clean_line]
  · simp only [cueStep, stripChars_clean_line]
    by_cases hlk : lookupChar st.character_data (clean_line l) = none
    · rw [if_pos hlk, lookupChar_append_self hlk]
      simp
    · rw [if_neg hlk]
      exact hlk

theorem all_cue_chars_is_character_cue_witness :
    character_re_match (clean_line joeLine) = true ∧
    (cueStep initState (clean_line joeLine)).current_character =
      some (clean_line joeLine) ∧
    lookupChar (cueStep initState (clean_line joeLine)).character_data
      (clean_line joeLine) ≠ none := by
  have h := all_cue_chars_is_character_cue initState joeLine (by decide)
    (by decide)
  exact ⟨h.1, h.2.2.1, h.2.2.2.2⟩

/- A minimal successful parse, used to instantiate the hypotheses of the
interval-ordering and contiguity theorems at a concrete input. -/

theorem extract_tiny :
    extract_character_data tinyLines = Except.ok (tinyData, 2/5) := by
  have t1 : processLine 150 initState ['A', '\n'] = Except.ok
      { character_data :=
          [(['A'], { positions := [], word_count := 0, line_count := 0 })],
        current_time := 0, current_character := some ['A'],
        capturing_dialogue := true } := by
    rw [processLine_cue 150 initState _ (by decide)]
    simp [cueStep, initState, lookupChar,
      (by decide : stripChars (clean_line ['A', '\n']) = ['A'])]
  have t2 : processLine 150
      { character_data :=
          [(['A'], { positions := [], word_count := 0, line_count := 0 })],
        current_time := 0, current_character := some ['A'],
        capturing_dialogue := true } ['H', 'i', '\n'] = Except.ok
      { character_data := [(['A'],
          { positions := [(0, 2/5)], word_count := 1, line_count := 1 })],
        current_time := 2/5, current_character := some ['A'],
        capturing_dialogue := true } := by
    rw [processLine_dialogue 150 _ _ ['A']
      { positions := [], word_count := 0, line_count := 0 }
      (by decide) (by decide) (by decide) rfl rfl (by decide) (by norm_num)
      (by simp [lookupChar]) (by decide)]
    simp [updateChar,
      (by decide : count_words (stripChars (clean_line ['H', 'i', '\n'])) = 1)]
    norm_num
  simp only [extract_character_data, extract_character_data_rate,
    WORDS_PER_MINUTE, tinyLines, processLines, t1, t2, allEnds,
    flattenPositions, pyMax, tinyData]
  norm_num

theorem extract_intervals_sorted_witness :
    extract_character_data tinyLines = Except.ok (tinyData, 2/5) ∧
    ∀ p ∈ tinyData, (∀ iv ∈ p.2.positions, iv.1 ≤ iv.2) ∧
      List.Pairwise (fun a b : ℚ × ℚ => a.1 ≤ b.1) p.2.positions :=
  ⟨extract_tiny,
    extract_intervals_sorted tinyLines tinyData (2/5) extract_tiny⟩

theorem extract_globally_contiguous_witness :
    extract_character_data tinyLines = Except.ok (tinyData, 2/5) ∧
    ∃ tr, tr ≠ [] ∧ chainFrom 0 tr ∧
      (flattenPositions tinyData).Perm tr ∧ (2/5 : ℚ) = lastEnd 0 tr :=
  ⟨extract_tiny,
    extract_globally_contiguous tinyLines tinyData (2/5) extract_tiny⟩

end FountainEval
